import Mathlib

/-!
Shallow embedding of `scripts/version_bumper.py`.

Lines of the dependency file are modelled as `List Char`.  The two module-level
regular expressions (`RAW_VERSION_RE`, `EXPANDED_VER_RE`) are embedded as item
sequences for a small backtracking matcher (`matchItems`) that reproduces the
leftmost-greedy backtracking semantics of Python's `re.match` for the pattern
constructs actually used (literal characters, greedy `*`, `+`, `?` over
single-character classes).  Pure string helpers (`strip`, `lstrip`,
`str.replace`) are embedded directly.  The network call of `get_new_version`
is modelled by passing the wire response in as data.

The two recursions that are not structural (`str.replace` skips
`old.length` characters at a match; the matcher recurses on (input, items)
lexicographically) are defined with an explicit fuel argument that provably
suffices, so that every definition evaluates by kernel reduction; the
fuel-free unfolding equations are proved below (`replaceAll_cons`,
`matchItems_...`) and are the only form used in proofs.
-/

/-- `String.data` as a short helper for writing concrete lines. -/
def chars (s : String) : List Char := s.data

/-- Python's `.` (no DOTALL): any character except a newline. -/
def dotP (c : Char) : Bool := c ≠ '\n'

/-- Python's `\s`, restricted to ASCII whitespace (all inputs considered here
are ASCII). -/
def spaceP (c : Char) : Bool :=
  c == ' ' || c == '\t' || c == '\n' || c == '\r' || c == '\x0b' || c == '\x0c'

/-- The comparator character class `[\^\~\>\=\<\!]` of both regexes; the same
set is used by `lstrip("^=!~<>")` in `bump_version`. -/
def cmpP (c : Char) : Bool :=
  c == '^' || c == '~' || c == '>' || c == '=' || c == '<' || c == '!'

/-- Python's `\w`, restricted to ASCII: letters, digits, underscore. -/
def wordP (c : Char) : Bool := c.isAlpha || c.isDigit || c == '_'

/-- The version character class `[\d\.\-\w]` of both regexes. -/
def versP (c : Char) : Bool := c.isDigit || c == '.' || c == '-' || wordP c

/-- Python `str.strip()` (strip whitespace from both ends). -/
def pyStrip (s : List Char) : List Char :=
  ((s.dropWhile spaceP).reverse.dropWhile spaceP).reverse

/-- Python `str.lstrip("^=!~<>")` as used on the matched version group. -/
def lstripCmp (s : List Char) : List Char := s.dropWhile cmpP

/-- The bracket character set of `line.strip('[]')` in `get_dependencies`. -/
def brP (c : Char) : Bool := c == '[' || c == ']'

/-- Python `str.strip('[]')`. -/
def stripBrackets (s : List Char) : List Char :=
  ((s.dropWhile brP).reverse.dropWhile brP).reverse

/-- Fuelled body of Python `str.replace(old, new)` for non-empty `old`:
replace every non-overlapping occurrence, scanning left to right.  A fuel of
`s.length` suffices since each step consumes at least one character. -/
def replaceAllF : Nat → List Char → List Char → List Char → List Char
  | 0, _, _, _ => []
  | _ + 1, [], _, _ => []
  | n + 1, c :: cs, old, new =>
    if old ≠ [] ∧ old.isPrefixOf (c :: cs) = true then
      new ++ replaceAllF n ((c :: cs).drop old.length) old new
    else
      c :: replaceAllF n cs old new

/-- Python `str.replace(old, new)` for a non-empty `old`.  (Every `old`
passed by this development is non-empty: the version group of either regex
has a mandatory `+`-part, so the empty-`old` edge case of Python never
arises.) -/
def replaceAll (s old new : List Char) : List Char := replaceAllF s.length s old new

/-- One item of the embedded regular expressions: a literal character, or a
greedy `*` / `+` / `?` over a single-character class. -/
inductive RItem where
  | lit  : Char → RItem
  | star : (Char → Bool) → RItem
  | plus : (Char → Bool) → RItem
  | opt  : (Char → Bool) → RItem

/-- Fuelled backtracking matcher with Python `re.match` semantics for a
sequence of `RItem`s: anchored at the start, not at the end; quantifiers are
greedy and backtrack longest-first; on success returns the sub-list consumed
by each item (in order) together with the unconsumed remainder.  A fuel of
`s.length + items.length + 1` suffices: every recursive call shortens the
input or, keeping the input, shortens the item list. -/
def matchItemsF : Nat → List RItem → List Char → Option (List (List Char) × List Char)
  | 0, _, _ => none
  | _ + 1, [], s => some ([], s)
  | _ + 1, .lit _ :: _, [] => none
  | n + 1, .lit c :: items, x :: xs =>
    if x = c then (matchItemsF n items xs).map (fun r => ([c] :: r.1, r.2)) else none
  | n + 1, .star _ :: items, [] =>
    (matchItemsF n items []).map (fun r => ([] :: r.1, r.2))
  | n + 1, .star p :: items, x :: xs =>
    if p x then
      match matchItemsF n (.star p :: items) xs with
      | some (chunk :: chunks, rest) => some ((x :: chunk) :: chunks, rest)
      | some ([], _) => none
      | none => (matchItemsF n items (x :: xs)).map (fun r => ([] :: r.1, r.2))
    else (matchItemsF n items (x :: xs)).map (fun r => ([] :: r.1, r.2))
  | _ + 1, .plus _ :: _, [] => none
  | n + 1, .plus p :: items, x :: xs =>
    if p x then
      match matchItemsF n (.star p :: items) xs with
      | some (chunk :: chunks, rest) => some ((x :: chunk) :: chunks, rest)
      | some ([], _) => none
      | none => none
    else none
  | n + 1, .opt _ :: items, [] =>
    (matchItemsF n items []).map (fun r => ([] :: r.1, r.2))
  | n + 1, .opt p :: items, x :: xs =>
    if p x then
      match matchItemsF n items xs with
      | some (chunks, rest) => some ([x] :: chunks, rest)
      | none => (matchItemsF n items (x :: xs)).map (fun r => ([] :: r.1, r.2))
    else (matchItemsF n items (x :: xs)).map (fun r => ([] :: r.1, r.2))

/-- The matcher at its sufficient fuel. -/
def matchItems (items : List RItem) (s : List Char) :
    Option (List (List Char) × List Char) :=
  matchItemsF (s.length + items.length + 1) items s

/-- `RAW_VERSION_RE`:
`(?P<package>.*)\s*=\s*\"(?P<version>[\^\~\>\=\<\!]?[\d\.\-\w]+)\"`. -/
def rawItems : List RItem :=
  [.star dotP, .star spaceP, .lit '=', .star spaceP, .lit '"',
   .opt cmpP, .plus versP, .lit '"']

/-- `RAW_VERSION_RE.match(s)`: on success, the `package` group and the
`version` group (comparator character, if any, still attached). -/
def rawMatch (s : List Char) : Option (List Char × List Char) :=
  match matchItems rawItems s with
  | some ([pk, _, _, _, _, cm, vs, _], _) => some (pk, cm ++ vs)
  | _ => none

/-- `EXPANDED_VER_RE`:
`(?P<package>.*)\s*=\s*\{(.*)version\s*=\s*\"(?P<version>[\^\~\>\=\<\!]?[\d\.\-\w]+)\"(.*)\}`. -/
def expItems : List RItem :=
  [.star dotP, .star spaceP, .lit '=', .star spaceP, .lit '{', .star dotP,
   .lit 'v', .lit 'e', .lit 'r', .lit 's', .lit 'i', .lit 'o', .lit 'n',
   .star spaceP, .lit '=', .star spaceP, .lit '"',
   .opt cmpP, .plus versP, .lit '"', .star dotP, .lit '}']

/-- `EXPANDED_VER_RE.match(s)`: on success, the `package` group and the
`version` group (comparator character, if any, still attached). -/
def expandedMatch (s : List Char) : Option (List Char × List Char) :=
  match matchItems expItems s with
  | some ([pk, _, _, _, _, _, _, _, _, _, _, _, _, _, _, _, _, cm, vs, _, _, _], _) =>
    some (pk, cm ++ vs)
  | _ => none

/-- The parsing phase of `bump_version` (lines 133–144 of the source): try
`EXPANDED_VER_RE` first; only if it fails, try `RAW_VERSION_RE`; from the
shape that matched take `group("package").strip()` and
`group("version").lstrip("^=!~<>")`; if neither matched the result is `None`. -/
def parse_dependency (dep : List Char) : Option (List Char × List Char) :=
  match expandedMatch dep with
  | some (pk, ver) => some (pyStrip pk, lstripCmp ver)
  | none =>
    match rawMatch dep with
    | some (pk, ver) => some (pyStrip pk, lstripCmp ver)
    | none => none

/-- `bump_version`, with the registry lookup `get_new_version` abstracted as a
function from package name to its result (`none` = lookup returned `None`).
Returns `some updated_line` when a newer version was substituted, `none`
(Python `None`) otherwise. -/
def bump_version (registry : List Char → Option (List Char)) (dep : List Char) :
    Option (List Char) :=
  match parse_dependency dep with
  | none => none
  | some (pkg, ver) =>
    match registry pkg with
    | none => none
    | some newv =>
      if ver ≠ newv then some (replaceAll dep ver newv) else none

/-! ### Registry client (`get_new_version`) with its failure modes

`get_new_version` performs `requests.get(...)`; the wire outcome is modelled
as data.  `requests.get` itself may raise (network failure); otherwise the
code checks `resp.ok`, then calls `resp.json()` (which raises on a body that
is not valid JSON), then indexes `rjson['info']["version"]` (which raises
`KeyError` when the field is absent). -/

/-- The body of an HTTP response, as far as `get_new_version` looks at it:
either not valid JSON, or JSON whose `info`/`version` field is absent
(`none`) or present with the given string value. -/
inductive Body where
  | invalidJson : Body
  | json : Option (List Char) → Body
deriving DecidableEq

/-- Outcome of `requests.get`: the call raised (network failure), or an HTTP
response with a success flag (`resp.ok`) and a body. -/
inductive RegResponse where
  | netError : RegResponse
  | response : Bool → Body → RegResponse
deriving DecidableEq

/-- The exceptions `get_new_version` can let escape. -/
inductive PyError where
  | connectionError : PyError
  | jsonDecodeError : PyError
  | keyError : PyError
deriving DecidableEq

/-- `get_new_version` on a given wire outcome: `.ok none` is Python's
`return None` (taken only when `not resp.ok`); `.error _` is an uncaught
exception propagating to the caller. -/
def get_new_version (resp : RegResponse) : Except PyError (Option (List Char)) :=
  match resp with
  | .netError => .error .connectionError
  | .response ok body =>
    if !ok then .ok none
    else
      match body with
      | .invalidJson => .error .jsonDecodeError
      | .json none => .error .keyError
      | .json (some v) => .ok (some v)

/-- `bump_version` with the wire outcome of each package's registry request
passed in, and exceptions made explicit: an exception raised inside
`get_new_version` propagates out of `bump_version` uncaught. -/
def bump_version_exc (wire : List Char → RegResponse) (dep : List Char) :
    Except PyError (Option (List Char)) :=
  match parse_dependency dep with
  | none => .ok none
  | some (pkg, ver) =>
    match get_new_version (wire pkg) with
    | .error e => .error e
    | .ok none => .ok none
    | .ok (some newv) =>
      .ok (if ver ≠ newv then some (replaceAll dep ver newv) else none)

/-! ### Section extractor (`get_dependencies`) -/

/-- The line `f"[{section}]"` that switches recording on. -/
def sectionHeader (sec : List Char) : List Char := '[' :: (sec ++ [']'])

/-- `get_dependencies`, taking the file content as its already-split line
list (the Python reads the file and calls `splitlines`).  The accumulator
`rec` is the `recording` flag, `i` the index of the first line of `ls`. -/
def getDepsAux (sec : List Char) : List (List Char) → Nat → Bool → List (Nat × List Char)
  | [], _, _ => []
  | l :: ls, i, rec =>
    if l.head? = some '[' ∧ stripBrackets l ≠ sec then
      getDepsAux sec ls (i + 1) false
    else if l = sectionHeader sec then
      getDepsAux sec ls (i + 1) true
    else if (chars "python =").isPrefixOf l then
      getDepsAux sec ls (i + 1) rec
    else if (chars "\x7b%").isPrefixOf l then
      getDepsAux sec ls (i + 1) rec
    else if rec then
      (i, l) :: getDepsAux sec ls (i + 1) rec
    else
      getDepsAux sec ls (i + 1) rec

/-- `get_dependencies(path, section)` on the split line list of the file. -/
def get_dependencies (lines : List (List Char)) (sec : List Char) :
    List (Nat × List Char) :=
  getDepsAux sec lines 0 false

/-! ### Orchestrator (`main`) -/

/-- The per-candidate loop of `main`: for each `(i, dep)` of the candidate
list, run `bump_version` on the original candidate text and, when it returns
a truthy value (Python `if new_version:` — non-`None` and non-empty),
overwrite the in-memory line at index `i`. -/
def apply_bumps (registry : List Char → Option (List Char)) :
    List (Nat × List Char) → List (List Char) → List (List Char)
  | [], lines => lines
  | (i, dep) :: rest, lines =>
    apply_bumps registry rest
      (match bump_version registry dep with
       | some nv => if nv = [] then lines else lines.set i nv
       | none => lines)

/-- The file transformation `main` performs, at the line level: read the
file's lines, collect candidates of the target section, bump each, write the
updated line list back (the write joins with `"\n"`, which is the
line-terminator normalization of the spec). -/
def main_update (registry : List Char → Option (List Char)) (sec : List Char)
    (lines : List (List Char)) : List (List Char) :=
  apply_bumps registry (get_dependencies lines sec) lines

/-! ### The spec's wording of the replacement (for comparison with the code)

The spec says the bump replaces the *first* textual occurrence of the
declared version and leaves every other occurrence unchanged. -/

/-- Modelled from the spec: `replace_first s old new` replaces only the first
occurrence of `old` in `s` (Python's `s.replace(old, new, 1)`), leaving every
other occurrence unchanged — the behaviour the spec ascribes to the bump. -/
def replace_first (s old new : List Char) : List Char :=
  match s with
  | [] => []
  | c :: cs =>
    if old ≠ [] ∧ old.isPrefixOf (c :: cs) = true then
      new ++ (c :: cs).drop old.length
    else
      c :: replace_first cs old new

/-! ### Fuel-free unfolding equations -/

theorem replaceAllF_nil (old new : List Char) : ∀ n, replaceAllF n [] old new = [] := by
  intro n
  cases n with
  | zero => rfl
  | succ _ => rfl

theorem replaceAllF_mono (old new : List Char) :
    ∀ (f g : Nat) (s : List Char), s.length ≤ f → s.length ≤ g →
      replaceAllF f s old new = replaceAllF g s old new := by
  intro f
  induction f with
  | zero =>
    intro g s hf _
    have : s = [] := List.eq_nil_of_length_eq_zero (Nat.le_zero.mp hf)
    subst this
    rw [replaceAllF_nil, replaceAllF_nil]
  | succ n ih =>
    intro g s hf hg
    cases s with
    | nil => rw [replaceAllF_nil, replaceAllF_nil]
    | cons c cs =>
      cases g with
      | zero => simp at hg
      | succ m =>
        have hcsn : cs.length ≤ n := by
          simp only [List.length_cons] at hf
          omega
        have hcsm : cs.length ≤ m := by
          simp only [List.length_cons] at hg
          omega
        simp only [replaceAllF]
        by_cases h : old ≠ [] ∧ old.isPrefixOf (c :: cs) = true
        · rw [if_pos h, if_pos h]
          have hpos : 0 < old.length := List.length_pos.mpr h.1
          have hlen : ((c :: cs).drop old.length).length ≤ cs.length := by
            simp only [List.length_drop, List.length_cons]
            omega
          rw [ih m _ (le_trans hlen hcsn) (le_trans hlen hcsm)]
        · rw [if_neg h, if_neg h, ih m cs hcsn hcsm]

theorem replaceAllF_fuel (old new : List Char) (f : Nat) (s : List Char)
    (hf : s.length ≤ f) : replaceAllF f s old new = replaceAll s old new :=
  replaceAllF_mono old new f s.length s hf (le_refl _)

/-- Unfolding equation of `replaceAll` on a cons cell. -/
theorem replaceAll_cons (c : Char) (cs old new : List Char) :
    replaceAll (c :: cs) old new =
      if old ≠ [] ∧ old.isPrefixOf (c :: cs) = true then
        new ++ replaceAll ((c :: cs).drop old.length) old new
      else
        c :: replaceAll cs old new := by
  show replaceAllF (cs.length + 1) (c :: cs) old new = _
  simp only [replaceAllF]
  by_cases h : old ≠ [] ∧ old.isPrefixOf (c :: cs) = true
  · rw [if_pos h, if_pos h]
    have hpos : 0 < old.length := List.length_pos.mpr h.1
    rw [replaceAllF_fuel old new cs.length _
      (by simp only [List.length_drop, List.length_cons]; omega)]
  · rw [if_neg h, if_neg h, replaceAllF_fuel old new cs.length cs (le_refl _)]

theorem matchItemsF_mono :
    ∀ (f g : Nat) (items : List RItem) (s : List Char),
      s.length + items.length + 1 ≤ f → s.length + items.length + 1 ≤ g →
      matchItemsF f items s = matchItemsF g items s := by
  intro f
  induction f with
  | zero => intro g items s hf _; omega
  | succ n ih =>
    intro g items s hf hg
    cases g with
    | zero => omega
    | succ m =>
      cases items with
      | nil => rfl
      | cons it items =>
        cases it with
        | lit c =>
          cases s with
          | nil => rfl
          | cons x xs =>
            simp only [matchItemsF]
            rw [ih m items xs (by (try simp only [List.length_cons, List.length_nil] at *); omega) (by (try simp only [List.length_cons, List.length_nil] at *); omega)]
        | star p =>
          cases s with
          | nil =>
            simp only [matchItemsF]
            rw [ih m items [] (by (try simp only [List.length_cons, List.length_nil] at *); omega) (by (try simp only [List.length_cons, List.length_nil] at *); omega)]
          | cons x xs =>
            simp only [matchItemsF]
            rw [ih m (.star p :: items) xs (by (try simp only [List.length_cons, List.length_nil] at *); omega) (by (try simp only [List.length_cons, List.length_nil] at *); omega),
                ih m items (x :: xs) (by (try simp only [List.length_cons, List.length_nil] at *); omega) (by (try simp only [List.length_cons, List.length_nil] at *); omega)]
        | plus p =>
          cases s with
          | nil => rfl
          | cons x xs =>
            simp only [matchItemsF]
            rw [ih m (.star p :: items) xs (by (try simp only [List.length_cons, List.length_nil] at *); omega) (by (try simp only [List.length_cons, List.length_nil] at *); omega)]
        | opt p =>
          cases s with
          | nil =>
            simp only [matchItemsF]
            rw [ih m items [] (by (try simp only [List.length_cons, List.length_nil] at *); omega) (by (try simp only [List.length_cons, List.length_nil] at *); omega)]
          | cons x xs =>
            simp only [matchItemsF]
            rw [ih m items xs (by (try simp only [List.length_cons, List.length_nil] at *); omega) (by (try simp only [List.length_cons, List.length_nil] at *); omega),
                ih m items (x :: xs) (by (try simp only [List.length_cons, List.length_nil] at *); omega) (by (try simp only [List.length_cons, List.length_nil] at *); omega)]

theorem matchItemsF_fuel (f : Nat) (items : List RItem) (s : List Char)
    (hf : s.length + items.length + 1 ≤ f) :
    matchItemsF f items s = matchItems items s :=
  matchItemsF_mono f (s.length + items.length + 1) items s hf (le_refl _)

/-- Unfolding: an empty item list matches, consuming nothing. -/
theorem matchItems_nil (s : List Char) : matchItems [] s = some ([], s) := rfl

/-- Unfolding: a literal at the end of input fails. -/
theorem matchItems_lit_nil (c : Char) (items : List RItem) :
    matchItems (.lit c :: items) [] = none := rfl

/-- Unfolding: a literal consumes one equal character. -/
theorem matchItems_lit_cons (c : Char) (items : List RItem) (x : Char) (xs : List Char) :
    matchItems (.lit c :: items) (x :: xs) =
      if x = c then (matchItems items xs).map (fun r => ([c] :: r.1, r.2)) else none := by
  show matchItemsF ((x :: xs).length + (RItem.lit c :: items).length + 1) _ _ = _
  simp only [List.length_cons]
  rw [show xs.length + 1 + (items.length + 1) + 1 = (xs.length + items.length + 2) + 1 by omega]
  simp only [matchItemsF]
  rw [matchItemsF_fuel _ items xs (by omega)]

/-- Unfolding: `*` at the end of input matches empty. -/
theorem matchItems_star_nil (p : Char → Bool) (items : List RItem) :
    matchItems (.star p :: items) [] =
      (matchItems items []).map (fun r => ([] :: r.1, r.2)) := by
  show matchItemsF ([].length + (RItem.star p :: items).length + 1) _ _ = _
  simp only [List.length_cons, List.length_nil]
  rw [show 0 + (items.length + 1) + 1 = (items.length + 1) + 1 by omega]
  simp only [matchItemsF]
  rw [matchItemsF_fuel _ items [] (by simp)]

/-- Unfolding: greedy `*` first tries to consume a class character and only
falls back to stopping here when the longer attempt fails. -/
theorem matchItems_star_cons (p : Char → Bool) (items : List RItem) (x : Char)
    (xs : List Char) :
    matchItems (.star p :: items) (x :: xs) =
      if p x then
        match matchItems (.star p :: items) xs with
        | some (chunk :: chunks, rest) => some ((x :: chunk) :: chunks, rest)
        | some ([], _) => none
        | none => (matchItems items (x :: xs)).map (fun r => ([] :: r.1, r.2))
      else (matchItems items (x :: xs)).map (fun r => ([] :: r.1, r.2)) := by
  show matchItemsF ((x :: xs).length + (RItem.star p :: items).length + 1) _ _ = _
  simp only [List.length_cons]
  rw [show xs.length + 1 + (items.length + 1) + 1 = (xs.length + items.length + 2) + 1 by omega]
  simp only [matchItemsF]
  rw [matchItemsF_fuel _ (.star p :: items) xs (by (try simp only [List.length_cons, List.length_nil] at *); omega),
      matchItemsF_fuel _ items (x :: xs) (by (try simp only [List.length_cons, List.length_nil] at *); omega)]

/-- Unfolding: `+` at the end of input fails. -/
theorem matchItems_plus_nil (p : Char → Bool) (items : List RItem) :
    matchItems (.plus p :: items) [] = none := rfl

/-- Unfolding: `+` consumes one mandatory class character, then behaves as `*`. -/
theorem matchItems_plus_cons (p : Char → Bool) (items : List RItem) (x : Char)
    (xs : List Char) :
    matchItems (.plus p :: items) (x :: xs) =
      if p x then
        match matchItems (.star p :: items) xs with
        | some (chunk :: chunks, rest) => some ((x :: chunk) :: chunks, rest)
        | some ([], _) => none
        | none => none
      else none := by
  show matchItemsF ((x :: xs).length + (RItem.plus p :: items).length + 1) _ _ = _
  simp only [List.length_cons]
  rw [show xs.length + 1 + (items.length + 1) + 1 = (xs.length + items.length + 2) + 1 by omega]
  simp only [matchItemsF]
  rw [matchItemsF_fuel _ (.star p :: items) xs (by (try simp only [List.length_cons, List.length_nil] at *); omega)]

/-- Unfolding: `?` at the end of input matches empty. -/
theorem matchItems_opt_nil (p : Char → Bool) (items : List RItem) :
    matchItems (.opt p :: items) [] =
      (matchItems items []).map (fun r => ([] :: r.1, r.2)) := by
  show matchItemsF ([].length + (RItem.opt p :: items).length + 1) _ _ = _
  simp only [List.length_cons, List.length_nil]
  rw [show 0 + (items.length + 1) + 1 = (items.length + 1) + 1 by omega]
  simp only [matchItemsF]
  rw [matchItemsF_fuel _ items [] (by simp)]

/-- Unfolding: greedy `?` first tries to consume one class character. -/
theorem matchItems_opt_cons (p : Char → Bool) (items : List RItem) (x : Char)
    (xs : List Char) :
    matchItems (.opt p :: items) (x :: xs) =
      if p x then
        match matchItems items xs with
        | some (chunks, rest) => some ([x] :: chunks, rest)
        | none => (matchItems items (x :: xs)).map (fun r => ([] :: r.1, r.2))
      else (matchItems items (x :: xs)).map (fun r => ([] :: r.1, r.2)) := by
  show matchItemsF ((x :: xs).length + (RItem.opt p :: items).length + 1) _ _ = _
  simp only [List.length_cons]
  rw [show xs.length + 1 + (items.length + 1) + 1 = (xs.length + items.length + 2) + 1 by omega]
  simp only [matchItemsF]
  rw [matchItemsF_fuel _ items xs (by omega),
      matchItemsF_fuel _ items (x :: xs) (by (try simp only [List.length_cons, List.length_nil] at *); omega)]

/-! ### Helper lemmas about `replaceAll` -/

/-- If no occurrence of `old` starts inside `pre`, `str.replace` substitutes
the occurrence right after `pre` and keeps scanning the remainder. -/
theorem replaceAll_append (old s new : List Char) (hold : old ≠ []) :
    ∀ pre : List Char,
      (∀ k, k < pre.length → old.isPrefixOf ((pre ++ old ++ s).drop k) = false) →
      replaceAll (pre ++ old ++ s) old new = pre ++ new ++ replaceAll s old new := by
  intro pre
  induction pre with
  | nil =>
    intro _
    obtain ⟨o, os, rfl⟩ : ∃ o os, old = o :: os := by
      cases old with
      | nil => exact absurd rfl hold
      | cons o os => exact ⟨o, os, rfl⟩
    simp only [List.nil_append, List.cons_append]
    rw [replaceAll_cons]
    have hpre : (o :: os).isPrefixOf (o :: (os ++ s)) = true := by
      rw [List.isPrefixOf_iff_prefix]
      exact (List.cons_append o os s) ▸ List.prefix_append (o :: os) s
    rw [if_pos ⟨hold, hpre⟩, ← List.cons_append, List.drop_left]
  | cons x pre' ih =>
    intro hno
    have h0 : old.isPrefixOf (x :: (pre' ++ old ++ s)) = false := by
      have := hno 0 (by simp)
      simpa using this
    rw [List.cons_append, List.cons_append, replaceAll_cons,
        if_neg (fun hc => by rw [h0] at hc; exact Bool.false_ne_true hc.2)]
    rw [ih (fun k hk => by
      have := hno (k + 1) (by simp only [List.length_cons]; omega)
      simpa using this)]
    simp

/-! ### Claim theorems -/

/-- Claim C2 (code-bug evidence): the registry client does NOT return the
"no result" sentinel on every failure.  A network failure
(`requests.get` raising) and a success-status response with a malformed body
(invalid JSON, or JSON missing the `info`/`version` field) all escape as
exceptions; only a non-success HTTP status produces the `None` sentinel
(and then the bump is "no update").  This contradicts the function's own
docstring ("Returns ... None if the request fails. Raises: None"). -/
theorem get_new_version_raises_on_failure :
    get_new_version RegResponse.netError = Except.error PyError.connectionError ∧
    get_new_version (RegResponse.response true Body.invalidJson) =
      Except.error PyError.jsonDecodeError ∧
    get_new_version (RegResponse.response true (Body.json none)) =
      Except.error PyError.keyError ∧
    get_new_version (RegResponse.response true Body.invalidJson) ≠ Except.ok none ∧
    (∀ body : Body, get_new_version (RegResponse.response false body) = Except.ok none) ∧
    bump_version_exc (fun _ => RegResponse.response true Body.invalidJson)
      (chars "pkg = \"1.2.3\"") = Except.error PyError.jsonDecodeError ∧
    bump_version_exc (fun _ => RegResponse.response false Body.invalidJson)
      (chars "pkg = \"1.2.3\"") = Except.ok none := by
  refine ⟨rfl, rfl, rfl, fun h => Except.noConfusion h, fun _ => rfl, rfl, rfl⟩

/-- Claim C4: the parser attempts the expanded/table shape first; for a line
on which both regular expressions match, the package and version used by the
bump are those extracted by the expanded-shape match. -/
theorem expanded_shape_tried_first (s p v p' v' : List Char)
    (he : expandedMatch s = some (p, v)) (_ : rawMatch s = some (p', v')) :
    parse_dependency s = some (pyStrip p, lstripCmp v) := by
  unfold parse_dependency
  rw [he]

/-- Witness for `expanded_shape_tried_first`: `pkg = { version = "1.2.3" }`
matches both shapes (the raw regex sees the inner `version = "1.2.3"` with
package group `pkg = { version`), and the parse takes the expanded result,
package `pkg`. -/
theorem expanded_shape_tried_first_witness :
    expandedMatch (chars "pkg = \x7b version = \"1.2.3\" \x7d") =
      some (chars "pkg ", chars "1.2.3") ∧
    rawMatch (chars "pkg = \x7b version = \"1.2.3\" \x7d") =
      some (chars "pkg = \x7b version ", chars "1.2.3") ∧
    parse_dependency (chars "pkg = \x7b version = \"1.2.3\" \x7d") =
      some (chars "pkg", chars "1.2.3") := by
  refine ⟨by decide, by decide, ?_⟩
  have h := expanded_shape_tried_first (chars "pkg = \x7b version = \"1.2.3\" \x7d")
    (chars "pkg ") (chars "1.2.3") (chars "pkg = \x7b version ") (chars "1.2.3")
    (by decide) (by decide)
  rw [h]
  decide

/-- Evaluation of `bump_version` once parse result and registry answer are
known. -/
theorem bump_version_eq (registry : List Char → Option (List Char))
    (dep pkg ver newv : List Char)
    (hparse : parse_dependency dep = some (pkg, ver))
    (hreg : registry pkg = some newv) :
    bump_version registry dep =
      if ver ≠ newv then some (replaceAll dep ver newv) else none := by
  unfold bump_version
  rw [hparse]
  show (match registry pkg with
        | none => none
        | some newv => if ver ≠ newv then some (replaceAll dep ver newv) else none) = _
  rw [hreg]

/-- Evaluation of `bump_version` when the registry lookup fails (returns the
`None` sentinel): the bump is "no update". -/
theorem bump_version_none (registry : List Char → Option (List Char))
    (dep pkg ver : List Char)
    (hparse : parse_dependency dep = some (pkg, ver))
    (hreg : registry pkg = none) :
    bump_version registry dep = none := by
  unfold bump_version
  rw [hparse]
  show (match registry pkg with
        | none => none
        | some newv => if ver ≠ newv then some (replaceAll dep ver newv) else none) = _
  rw [hreg]

/-- Evaluation of `bump_version` when neither regex matches: silently "no
update". -/
theorem bump_version_no_parse (registry : List Char → Option (List Char))
    (dep : List Char) (hparse : parse_dependency dep = none) :
    bump_version registry dep = none := by
  unfold bump_version
  rw [hparse]

/-- Claim C9: version comparison in the bump is pure string equality.  For a
parsed dependency line whose registry lookup returns `newv`, the bump is "no
update" exactly when `newv` is character-for-character equal to the declared
version, and any textual difference produces an updated line. -/
theorem bump_uses_string_equality (registry : List Char → Option (List Char))
    (dep pkg ver newv : List Char)
    (hparse : parse_dependency dep = some (pkg, ver))
    (hreg : registry pkg = some newv) :
    (bump_version registry dep = none ↔ newv = ver) ∧
    (newv ≠ ver → bump_version registry dep = some (replaceAll dep ver newv)) := by
  rw [bump_version_eq registry dep pkg ver newv hparse hreg]
  constructor
  · by_cases h : ver = newv
    · simp [h]
    · simp only [ne_eq, h, not_false_eq_true, if_true]
      exact ⟨fun hs => Option.noConfusion hs, fun he => absurd he.symm h⟩
  · intro hne
    rw [if_pos (fun he => hne he.symm)]

/-- Witness for `bump_uses_string_equality`: the formatting-only difference
`1.2` vs `1.20` (a trailing zero) is a different string and triggers a bump;
the identical string `1.2` does not. -/
theorem bump_uses_string_equality_witness :
    bump_version (fun p => if p = chars "pkg" then some (chars "1.20") else none)
        (chars "pkg = \"1.2\"") = some (chars "pkg = \"1.20\"") ∧
    bump_version (fun p => if p = chars "pkg" then some (chars "1.2") else none)
        (chars "pkg = \"1.2\"") = none := by
  constructor
  · have h := (bump_uses_string_equality
      (fun p => if p = chars "pkg" then some (chars "1.20") else none)
      (chars "pkg = \"1.2\"") (chars "pkg") (chars "1.2") (chars "1.20")
      (by decide) (by decide)).2 (by decide)
    rw [h]
    decide
  · exact (bump_uses_string_equality
      (fun p => if p = chars "pkg" then some (chars "1.2") else none)
      (chars "pkg = \"1.2\"") (chars "pkg") (chars "1.2") (chars "1.2")
      (by decide) (by decide)).1.mpr rfl

/-- Claim C1 counterexample: the bump does NOT replace only the first
occurrence of the declared version.  On the line `aaa = "1.2" # 1.2`, with
the registry reporting `9.9`, the code (Python `str.replace` without a
count) rewrites **both** occurrences of `1.2`, whereas the spec's
first-occurrence-only replacement would leave the trailing `1.2` unchanged. -/
theorem bump_not_first_occurrence_cex :
    bump_version (fun p => if p = chars "aaa" then some (chars "9.9") else none)
        (chars "aaa = \"1.2\" # 1.2") = some (chars "aaa = \"9.9\" # 9.9") ∧
    replace_first (chars "aaa = \"1.2\" # 1.2") (chars "1.2") (chars "9.9") =
      chars "aaa = \"9.9\" # 1.2" ∧
    bump_version (fun p => if p = chars "aaa" then some (chars "9.9") else none)
        (chars "aaa = \"1.2\" # 1.2") ≠
      some (replace_first (chars "aaa = \"1.2\" # 1.2") (chars "1.2") (chars "9.9")) := by
  refine ⟨by decide, by decide, by decide⟩

/-- Claim C1 (amended): when a bump happens, the updated line is the original
with **every** non-overlapping occurrence of the declared version substring
replaced, left to right: the first occurrence after any occurrence-free
prefix `a` is replaced, and replacement continues through the remainder of
the line rather than leaving later occurrences unchanged. -/
theorem bump_replaces_every_occurrence (registry : List Char → Option (List Char))
    (dep a suf pkg ver newv : List Char)
    (hparse : parse_dependency dep = some (pkg, ver))
    (hdep : dep = a ++ ver ++ suf)
    (hver : ver ≠ [])
    (hno : ∀ k, k < a.length → ver.isPrefixOf (dep.drop k) = false)
    (hreg : registry pkg = some newv)
    (hne : newv ≠ ver) :
    bump_version registry dep = some (a ++ newv ++ replaceAll suf ver newv) := by
  rw [bump_version_eq registry dep pkg ver newv hparse hreg,
      if_pos (fun he => hne he.symm)]
  subst hdep
  rw [replaceAll_append ver suf newv hver a hno]

/-- Witness for `bump_replaces_every_occurrence` on `aaa = "1.2" # 1.2`:
the prefix `aaa = "` holds no occurrence of `1.2`, and the remainder
`" # 1.2` has its own occurrence replaced as well. -/
theorem bump_replaces_every_occurrence_witness :
    bump_version (fun p => if p = chars "bbb" then some (chars "9.9") else none)
        (chars "bbb = \"1.2\" # 1.2") =
      some (chars "bbb = \"" ++ chars "9.9" ++
            replaceAll (chars "\" # 1.2") (chars "1.2") (chars "9.9")) ∧
    chars "bbb = \"" ++ chars "9.9" ++
        replaceAll (chars "\" # 1.2") (chars "1.2") (chars "9.9") =
      chars "bbb = \"9.9\" # 9.9" := by
  constructor
  · exact bump_replaces_every_occurrence
      (fun p => if p = chars "bbb" then some (chars "9.9") else none)
      (chars "bbb = \"1.2\" # 1.2") (chars "bbb = \"") (chars "\" # 1.2")
      (chars "bbb") (chars "1.2") (chars "9.9")
      (by decide) (by decide) (by decide) (by decide) (by decide) (by decide)
  · decide

/-- Claim C10: comparator-prefix preservation.  For a dependency line whose
declared version carries a comparator character `c` and whose bare version
substring has no occurrence starting before the version position, a
successful bump leaves the prefix — comparator included — unchanged, with the
comparator immediately preceding the new version. -/
theorem bump_preserves_comparator (registry : List Char → Option (List Char))
    (dep a suf pkg ver newv : List Char) (c : Char)
    (hparse : parse_dependency dep = some (pkg, ver))
    (hdep : dep = a ++ [c] ++ ver ++ suf)
    (_hc : cmpP c = true)
    (hver : ver ≠ [])
    (hno : ∀ k, k < a.length + 1 → ver.isPrefixOf (dep.drop k) = false)
    (hreg : registry pkg = some newv)
    (hne : newv ≠ ver) :
    bump_version registry dep = some (a ++ [c] ++ newv ++ replaceAll suf ver newv) := by
  rw [bump_version_eq registry dep pkg ver newv hparse hreg,
      if_pos (fun he => hne he.symm)]
  subst hdep
  have := replaceAll_append ver suf newv hver (a ++ [c]) (fun k hk => by
    apply hno
    simp only [List.length_append, List.length_cons, List.length_nil] at hk ⊢
    omega)
  simpa using this

/-- Witness for `bump_preserves_comparator`: `ccc = "^1.2.3"` bumped to
`2.0.0` becomes `ccc = "^2.0.0"`, caret intact. -/
theorem bump_preserves_comparator_witness :
    bump_version (fun p => if p = chars "ccc" then some (chars "2.0.0") else none)
        (chars "ccc = \"^1.2.3\"") =
      some (chars "ccc = \"" ++ ['^'] ++ chars "2.0.0" ++
            replaceAll (chars "\"") (chars "1.2.3") (chars "2.0.0")) ∧
    chars "ccc = \"" ++ ['^'] ++ chars "2.0.0" ++
        replaceAll (chars "\"") (chars "1.2.3") (chars "2.0.0") =
      chars "ccc = \"^2.0.0\"" := by
  constructor
  · exact bump_preserves_comparator
      (fun p => if p = chars "ccc" then some (chars "2.0.0") else none)
      (chars "ccc = \"^1.2.3\"") (chars "ccc = \"") (chars "\"")
      (chars "ccc") (chars "1.2.3") (chars "2.0.0") '^'
      (by decide) (by decide) (by decide) (by decide) (by decide) (by decide) (by decide)
  · decide

/-! ### Helper lemmas about the orchestrator loop -/

theorem apply_bumps_length (registry : List Char → Option (List Char)) :
    ∀ (deps : List (Nat × List Char)) (lines : List (List Char)),
      (apply_bumps registry deps lines).length = lines.length := by
  intro deps
  induction deps with
  | nil => intro lines; rfl
  | cons q rest ih =>
    intro lines
    obtain ⟨i, dep⟩ := q
    show (apply_bumps registry rest _).length = _
    rw [ih]
    cases bump_version registry dep with
    | none => rfl
    | some nv =>
      by_cases h : nv = []
      · simp [h]
      · simp [h, List.length_set]

theorem apply_bumps_getElem_ne (registry : List Char → Option (List Char)) :
    ∀ (deps : List (Nat × List Char)) (lines : List (List Char)) (j : Nat),
      j ∉ deps.map Prod.fst →
      (apply_bumps registry deps lines)[j]? = lines[j]? := by
  intro deps
  induction deps with
  | nil => intro lines j _; rfl
  | cons q rest ih =>
    intro lines j hj
    obtain ⟨i, dep⟩ := q
    simp only [List.map_cons, List.mem_cons, not_or] at hj
    show (apply_bumps registry rest _)[j]? = _
    rw [ih _ j hj.2]
    cases bump_version registry dep with
    | none => rfl
    | some nv =>
      by_cases h : nv = []
      · simp [h]
      · simp only [h, if_neg]
        exact List.getElem?_set_ne (fun he => hj.1 he.symm) |>.symm ▸ rfl

theorem apply_bumps_all_none (registry : List Char → Option (List Char)) :
    ∀ (deps : List (Nat × List Char)) (lines : List (List Char)),
      (∀ q ∈ deps, bump_version registry q.2 = none) →
      apply_bumps registry deps lines = lines := by
  intro deps
  induction deps with
  | nil => intro lines _; rfl
  | cons q rest ih =>
    intro lines h
    obtain ⟨i, dep⟩ := q
    show apply_bumps registry rest _ = _
    have h0 : bump_version registry dep = none := h (i, dep) (List.mem_cons_self _ _)
    rw [h0]
    exact ih lines (fun q hq => h q (List.mem_cons_of_mem _ hq))

/-- Claim C5: the frame property of `main`.  For every input line list,
section and registry: the output has the same length; every line whose index
is not in the candidate list is unchanged; and with zero candidates the
output equals the input line for line (so the rewritten file is identical up
to line-terminator normalization, which joining with a newline performs). -/
theorem main_update_frame (registry : List Char → Option (List Char))
    (sec : List Char) (lines : List (List Char)) :
    (main_update registry sec lines).length = lines.length ∧
    (∀ j, j ∉ (get_dependencies lines sec).map Prod.fst →
      (main_update registry sec lines)[j]? = lines[j]?) ∧
    (get_dependencies lines sec = [] → main_update registry sec lines = lines) := by
  refine ⟨apply_bumps_length registry _ lines, ?_, ?_⟩
  · intro j hj
    exact apply_bumps_getElem_ne registry _ lines j hj
  · intro h
    unfold main_update
    rw [h]
    rfl

/-- Witness for `main_update_frame`: a file whose target section holds one
bumpable line keeps its length and its non-candidate lines; a file without
the target section is returned unchanged. -/
theorem main_update_frame_witness :
    (main_update (fun _ => some (chars "3.0"))
        (chars "deps") [chars "[deps]", chars "ddd = \"1.0\""]).length = 2 ∧
    (main_update (fun _ => some (chars "3.0"))
        (chars "deps") [chars "[deps]", chars "ddd = \"1.0\""])[0]? =
      some (chars "[deps]") ∧
    main_update (fun _ => some (chars "3.0"))
        (chars "other") [chars "[deps]", chars "ddd = \"1.0\""] =
      [chars "[deps]", chars "ddd = \"1.0\""] := by
  refine ⟨?_, ?_, ?_⟩
  · rw [(main_update_frame (fun _ => some (chars "3.0"))
      (chars "deps") [chars "[deps]", chars "ddd = \"1.0\""]).1]
    decide
  · rw [(main_update_frame (fun _ => some (chars "3.0"))
      (chars "deps") [chars "[deps]", chars "ddd = \"1.0\""]).2.1 0 (by decide)]
    decide
  · exact (main_update_frame (fun _ => some (chars "3.0"))
      (chars "other") [chars "[deps]", chars "ddd = \"1.0\""]).2.2 (by decide)

/-- Claim C6 counterexample: the bump process is NOT idempotent under a fixed
registry.  The replacement rewrites every occurrence of the version
substring, including inside the package name: `pkg1.2 = "1.2"` becomes
`pkg9.9 = "9.9"` on the first run, which the second run parses as a
*different* package (`pkg9.9`), whose registry answer `7.7` triggers a
further modification. -/
theorem main_update_not_idempotent_cex :
    main_update
        (fun p => if p = chars "pkg1.2" then some (chars "9.9")
          else if p = chars "pkg9.9" then some (chars "7.7") else none)
        (chars "deps") [chars "[deps]", chars "pkg1.2 = \"1.2\""] =
      [chars "[deps]", chars "pkg9.9 = \"9.9\""] ∧
    main_update
        (fun p => if p = chars "pkg1.2" then some (chars "9.9")
          else if p = chars "pkg9.9" then some (chars "7.7") else none)
        (chars "deps") [chars "[deps]", chars "pkg9.9 = \"9.9\""] =
      [chars "[deps]", chars "pkg7.7 = \"7.7\""] ∧
    main_update
        (fun p => if p = chars "pkg1.2" then some (chars "9.9")
          else if p = chars "pkg9.9" then some (chars "7.7") else none)
        (chars "deps")
        (main_update
          (fun p => if p = chars "pkg1.2" then some (chars "9.9")
            else if p = chars "pkg9.9" then some (chars "7.7") else none)
          (chars "deps") [chars "[deps]", chars "pkg1.2 = \"1.2\""]) ≠
      main_update
        (fun p => if p = chars "pkg1.2" then some (chars "9.9")
          else if p = chars "pkg9.9" then some (chars "7.7") else none)
        (chars "deps") [chars "[deps]", chars "pkg1.2 = \"1.2\""] := by
  refine ⟨by decide, by decide, by decide⟩

/-- Claim C6 (amended): the second run makes no further modification
*provided* every candidate line of the first run's output either fails to
parse or parses to a package whose registry answer is absent or equal to its
declared version — which is the case exactly when updated lines re-parse to
the same package carrying the new version, but can fail when the replacement
alters the package name (the counterexample above). -/
theorem main_update_conditionally_idempotent
    (registry : List Char → Option (List Char)) (sec : List Char)
    (lines : List (List Char))
    (h : ∀ q ∈ get_dependencies lines sec, ∀ pkg ver,
      parse_dependency q.2 = some (pkg, ver) →
      registry pkg = none ∨ registry pkg = some ver) :
    main_update registry sec lines = lines := by
  unfold main_update
  apply apply_bumps_all_none
  intro q hq
  cases hp : parse_dependency q.2 with
  | none => exact bump_version_no_parse registry q.2 hp
  | some pv =>
    obtain ⟨pkg, ver⟩ := pv
    cases h q hq pkg ver hp with
    | inl hr => exact bump_version_none registry q.2 pkg ver hp hr
    | inr hr =>
      rw [bump_version_eq registry q.2 pkg ver ver hp hr]
      simp

/-- Witness for `main_update_conditionally_idempotent`: a section whose only
dependency already carries the registry's latest version is left unchanged. -/
theorem main_update_conditionally_idempotent_witness :
    main_update (fun p => if p = chars "requests" then some (chars "2.26.0") else none)
        (chars "deps") [chars "[deps]", chars "requests = \"2.26.0\""] =
      [chars "[deps]", chars "requests = \"2.26.0\""] := by
  apply main_update_conditionally_idempotent
  intro q hq pkg ver hp
  have hd : get_dependencies [chars "[deps]", chars "requests = \"2.26.0\""]
      (chars "deps") = [(1, chars "requests = \"2.26.0\"")] := by decide
  rw [hd] at hq
  have hq2 : q = (1, chars "requests = \"2.26.0\"") := List.mem_singleton.mp hq
  subst hq2
  have hpv : parse_dependency (chars "requests = \"2.26.0\"") =
      some (chars "requests", chars "2.26.0") := by decide
  rw [hpv] at hp
  cases hp
  right
  decide

/-! ### Characterization of the section extractor -/

/-- One step of the `recording` flag of `get_dependencies`: a bracket line of
another section switches it off, the exact target header switches it on,
anything else leaves it. -/
def newRec (sec : List Char) (rec : Bool) (l : List Char) : Bool :=
  if l.head? = some '[' ∧ stripBrackets l ≠ sec then false
  else if l = sectionHeader sec then true
  else rec

/-- The value of the `recording` flag when `get_dependencies` reaches the
line at index `k` of `ls`, starting from flag `rec`. -/
def recAt (sec : List Char) : Bool → List (List Char) → Nat → Bool
  | rec, _, 0 => rec
  | rec, [], _ + 1 => rec
  | rec, l :: ls, k + 1 => recAt sec (newRec sec rec l) ls k

/-- A line's text passes every per-line filter of `get_dependencies`: it is
not a bracket line of another section, not the target header, and starts
with neither the interpreter pin key nor the templating marker. -/
def passesLineFilters (sec l : List Char) : Prop :=
  ¬(l.head? = some '[' ∧ stripBrackets l ≠ sec) ∧ l ≠ sectionHeader sec ∧
  ¬(chars "python =").isPrefixOf l = true ∧ ¬(chars "\x7b%").isPrefixOf l = true

instance (sec l : List Char) : Decidable (passesLineFilters sec l) := by
  unfold passesLineFilters
  infer_instance

theorem recAt_zero (sec : List Char) (rec : Bool) (ls : List (List Char)) :
    recAt sec rec ls 0 = rec := by
  cases ls <;> rfl

theorem recAt_nil (sec : List Char) (rec : Bool) (k : Nat) :
    recAt sec rec [] k = rec := by
  cases k <;> rfl

theorem recAt_cons (sec : List Char) (rec : Bool) (l : List Char)
    (ls : List (List Char)) (k : Nat) :
    recAt sec rec (l :: ls) (k + 1) = recAt sec (newRec sec rec l) ls k := rfl

/-- Splitting an existential over positions of `l0 :: ls'` into the position
`0` case and the shifted-tail case. -/
theorem pos_exists_split (sec l0 l : List Char) (ls' : List (List Char))
    (i n : Nat) (rec : Bool) (P : List Char → Prop) :
    (∃ k, n = i + k ∧ (l0 :: ls')[k]? = some l ∧
      recAt sec rec (l0 :: ls') k = true ∧ P l) ↔
    ((n = i ∧ l0 = l ∧ rec = true ∧ P l) ∨
     (∃ k, n = (i + 1) + k ∧ ls'[k]? = some l ∧
       recAt sec (newRec sec rec l0) ls' k = true ∧ P l)) := by
  constructor
  · rintro ⟨k, hn, hget, hrec, hP⟩
    cases k with
    | zero =>
      left
      rw [recAt_zero] at hrec
      refine ⟨by omega, by simpa using hget, hrec, hP⟩
    | succ k' =>
      right
      rw [recAt_cons] at hrec
      exact ⟨k', by omega, by simpa using hget, hrec, hP⟩
  · rintro (⟨hn, hl, hrec, hP⟩ | ⟨k, hn, hget, hrec, hP⟩)
    · exact ⟨0, by omega, by simp [hl], by rw [recAt_zero]; exact hrec, hP⟩
    · exact ⟨k + 1, by omega, by simpa using hget, by rw [recAt_cons]; exact hrec, hP⟩

/-- Membership characterization of the extractor loop: `(n, l)` is collected
from `ls` (starting at index `i` with flag `rec`) exactly when `l` sits at
the corresponding offset, the recording flag is on when reaching it, and the
line passes every per-line filter. -/
theorem getDepsAux_mem (sec : List Char) :
    ∀ (ls : List (List Char)) (i : Nat) (rec : Bool) (n : Nat) (l : List Char),
      ((n, l) ∈ getDepsAux sec ls i rec ↔
        ∃ k, n = i + k ∧ ls[k]? = some l ∧ recAt sec rec ls k = true ∧
          passesLineFilters sec l) := by
  intro ls
  induction ls with
  | nil =>
    intro i rec n l
    constructor
    · intro h
      exact absurd h (List.not_mem_nil _)
    · rintro ⟨k, _, hget, _, _⟩
      simp at hget
  | cons l0 ls' ih =>
    intro i rec n l
    rw [pos_exists_split]
    show (n, l) ∈ (if l0.head? = some '[' ∧ stripBrackets l0 ≠ sec then
        getDepsAux sec ls' (i + 1) false
      else if l0 = sectionHeader sec then
        getDepsAux sec ls' (i + 1) true
      else if (chars "python =").isPrefixOf l0 then
        getDepsAux sec ls' (i + 1) rec
      else if (chars "\x7b%").isPrefixOf l0 then
        getDepsAux sec ls' (i + 1) rec
      else if rec then
        (i, l0) :: getDepsAux sec ls' (i + 1) rec
      else
        getDepsAux sec ls' (i + 1) rec) ↔ _
    by_cases hc1 : l0.head? = some '[' ∧ stripBrackets l0 ≠ sec
    · rw [if_pos hc1, ih (i + 1) false n l]
      have hnr : newRec sec rec l0 = false := by
        unfold newRec
        rw [if_pos hc1]
      rw [hnr]
      constructor
      · exact Or.inr
      · rintro (⟨_, hl, _, hP⟩ | h)
        · exact absurd hc1 (hl ▸ hP.1)
        · exact h
    · rw [if_neg hc1]
      by_cases hc2 : l0 = sectionHeader sec
      · rw [if_pos hc2, ih (i + 1) true n l]
        have hnr : newRec sec rec l0 = true := by
          unfold newRec
          rw [if_neg hc1, if_pos hc2]
        rw [hnr]
        constructor
        · exact Or.inr
        · rintro (⟨_, hl, _, hP⟩ | h)
          · exact absurd hc2 (hl ▸ hP.2.1)
          · exact h
      · rw [if_neg hc2]
        have hnr : newRec sec rec l0 = rec := by
          unfold newRec
          rw [if_neg hc1, if_neg hc2]
        by_cases hc3 : (chars "python =").isPrefixOf l0 = true
        · rw [if_pos hc3, ih (i + 1) rec n l, hnr]
          constructor
          · exact Or.inr
          · rintro (⟨_, hl, _, hP⟩ | h)
            · exact absurd hc3 (hl ▸ hP.2.2.1)
            · exact h
        · rw [if_neg hc3]
          by_cases hc4 : (chars "\x7b%").isPrefixOf l0 = true
          · rw [if_pos hc4, ih (i + 1) rec n l, hnr]
            constructor
            · exact Or.inr
            · rintro (⟨_, hl, _, hP⟩ | h)
              · exact absurd hc4 (hl ▸ hP.2.2.2)
              · exact h
          · rw [if_neg hc4, hnr]
            by_cases hr : rec
            · rw [if_pos hr, List.mem_cons, ih (i + 1) rec n l, Prod.mk.injEq]
              constructor
              · rintro (⟨hn, hl⟩ | h)
                · exact Or.inl ⟨hn, hl.symm, hr, hl ▸ ⟨hc1, hc2, hc3, hc4⟩⟩
                · exact Or.inr h
              · rintro (⟨hn, hl, _, _⟩ | h)
                · exact Or.inl ⟨hn, hl.symm⟩
                · exact Or.inr h
            · rw [if_neg hr, ih (i + 1) rec n l]
              constructor
              · exact Or.inr
              · rintro (⟨_, _, hrt, _⟩ | h)
                · exact absurd hrt hr
                · exact h

/-- If the recording flag is on at position `k`, either some earlier line is
the exact target header with no de-recording bracket line in between, or the
flag was on initially and no de-recording bracket line occurs before `k`. -/
theorem recAt_eq_true (sec : List Char) :
    ∀ (ls : List (List Char)) (k : Nat) (rec : Bool),
      recAt sec rec ls k = true →
      (∃ j, j < k ∧ ls[j]? = some (sectionHeader sec) ∧
        ∀ m lm, j < m → m < k → ls[m]? = some lm →
          ¬(lm.head? = some '[' ∧ stripBrackets lm ≠ sec)) ∨
      (rec = true ∧ ∀ m lm, m < k → ls[m]? = some lm →
        ¬(lm.head? = some '[' ∧ stripBrackets lm ≠ sec)) := by
  intro ls
  induction ls with
  | nil =>
    intro k rec h
    rw [recAt_nil] at h
    right
    refine ⟨h, fun m lm _ hget => ?_⟩
    simp at hget
  | cons l0 ls' ih =>
    intro k rec h
    cases k with
    | zero =>
      rw [recAt_zero] at h
      right
      exact ⟨h, fun m lm hm _ => absurd hm (Nat.not_lt_zero m)⟩
    | succ k' =>
      rw [recAt_cons] at h
      cases ih k' (newRec sec rec l0) h with
      | inl hex =>
        obtain ⟨j, hj, hdr, hbet⟩ := hex
        left
        refine ⟨j + 1, Nat.succ_lt_succ hj, by simpa using hdr, ?_⟩
        intro m lm hjm hmk hget
        cases m with
        | zero => omega
        | succ m' =>
          exact hbet m' lm (by omega) (by omega) (by simpa using hget)
      | inr hini =>
        obtain ⟨hnew, hall⟩ := hini
        by_cases hc1 : l0.head? = some '[' ∧ stripBrackets l0 ≠ sec
        · rw [newRec, if_pos hc1] at hnew
          exact absurd hnew (by simp)
        · by_cases hc2 : l0 = sectionHeader sec
          · left
            refine ⟨0, Nat.succ_pos k', by simp [hc2], ?_⟩
            intro m lm hm hmk hget
            cases m with
            | zero => omega
            | succ m' =>
              exact hall m' lm (by omega) (by simpa using hget)
          · rw [newRec, if_neg hc1, if_neg hc2] at hnew
            right
            refine ⟨hnew, ?_⟩
            intro m lm hm hget
            cases m with
            | zero =>
              simp only [List.getElem?_cons_zero, Option.some.injEq] at hget
              exact hget ▸ hc1
            | succ m' =>
              exact hall m' lm (by omega) (by simpa using hget)

/-- Indices collected by the extractor loop are at least the running index,
and come strictly sorted in file order. -/
theorem getDepsAux_sorted (sec : List Char) :
    ∀ (ls : List (List Char)) (i : Nat) (rec : Bool),
      List.Pairwise (fun p q => p.1 < q.1) (getDepsAux sec ls i rec) ∧
      ∀ q ∈ getDepsAux sec ls i rec, i ≤ q.1 := by
  intro ls
  induction ls with
  | nil => intro i rec; exact ⟨List.Pairwise.nil, fun q hq => absurd hq (List.not_mem_nil q)⟩
  | cons l0 ls' ih =>
    intro i rec
    have hunf : getDepsAux sec (l0 :: ls') i rec =
        (if l0.head? = some '[' ∧ stripBrackets l0 ≠ sec then
          getDepsAux sec ls' (i + 1) false
        else if l0 = sectionHeader sec then
          getDepsAux sec ls' (i + 1) true
        else if (chars "python =").isPrefixOf l0 then
          getDepsAux sec ls' (i + 1) rec
        else if (chars "\x7b%").isPrefixOf l0 then
          getDepsAux sec ls' (i + 1) rec
        else if rec then
          (i, l0) :: getDepsAux sec ls' (i + 1) rec
        else
          getDepsAux sec ls' (i + 1) rec) := rfl
    rw [hunf]
    have step : ∀ (r : Bool),
        List.Pairwise (fun p q => p.1 < q.1) (getDepsAux sec ls' (i + 1) r) ∧
        ∀ q ∈ getDepsAux sec ls' (i + 1) r, i ≤ q.1 :=
      fun r => ⟨(ih (i + 1) r).1, fun q hq => le_trans (Nat.le_succ i) ((ih (i + 1) r).2 q hq)⟩
    split_ifs with hc1 hc2 hc3 hc4 hr
    · exact step false
    · exact step true
    · exact step rec
    · exact step rec
    · refine ⟨List.Pairwise.cons ?_ (ih (i + 1) rec).1, ?_⟩
      · intro q hq
        exact lt_of_lt_of_le (Nat.lt_succ_self i) ((ih (i + 1) rec).2 q hq)
      · intro q hq
        cases List.mem_cons.mp hq with
        | inl he => exact he ▸ le_refl i
        | inr hm => exact (step rec).2 q hm
    · exact step rec

/-- Claim C7: section isolation.  Every `(index, text)` pair produced by the
section extractor lies strictly inside an occurrence of the named bracketed
section: some earlier line is exactly the `[section]` header and no line
between that header and the candidate switches recording off (a bracket line
of another section).  Membership depends on the index, not on the text, so a
textually identical line outside the section is never collected. -/
theorem candidates_inside_target_section (lines : List (List Char))
    (sec : List Char) (i : Nat) (l : List Char)
    (h : (i, l) ∈ get_dependencies lines sec) :
    ∃ j, j < i ∧ lines[j]? = some (sectionHeader sec) ∧
      ∀ m lm, j < m → m < i → lines[m]? = some lm →
        ¬(lm.head? = some '[' ∧ stripBrackets lm ≠ sec) := by
  have hchar := (getDepsAux_mem sec lines 0 false i l).mp h
  obtain ⟨k, hik, hget, hrec, _⟩ := hchar
  have hk : k = i := by omega
  subst hk
  cases recAt_eq_true sec lines k false hrec with
  | inl hex => exact hex
  | inr hini => exact absurd hini.1 (by simp)

/-- Witness for `candidates_inside_target_section` on a two-section file:
the candidate at index 3 is preceded by its `[deps]` header at index 2, with
no de-recording line in between. -/
theorem candidates_inside_target_section_witness :
    ((3, chars "fff = \"1.0\"") ∈ get_dependencies
      [chars "[other]", chars "fff = \"1.0\"", chars "[deps]", chars "fff = \"1.0\""]
      (chars "deps")) ∧
    (∃ j, j < 3 ∧
      [chars "[other]", chars "fff = \"1.0\"", chars "[deps]", chars "fff = \"1.0\""][j]? =
        some (sectionHeader (chars "deps")) ∧
      ∀ m lm, j < m → m < 3 →
        [chars "[other]", chars "fff = \"1.0\"", chars "[deps]", chars "fff = \"1.0\""][m]? =
          some lm →
        ¬(lm.head? = some '[' ∧ stripBrackets lm ≠ chars "deps")) := by
  refine ⟨by decide, ?_⟩
  exact candidates_inside_target_section
    [chars "[other]", chars "fff = \"1.0\"", chars "[deps]", chars "fff = \"1.0\""]
    (chars "deps") 3 (chars "fff = \"1.0\"") (by decide)

/-- Claim C8 counterexample: an empty line inside the target section IS
collected as a candidate, contradicting the claim's "non-empty lines" /
"an empty line inside the section is never a candidate". -/
theorem empty_line_is_candidate_cex :
    get_dependencies [chars "[deps]", []] (chars "deps") = [(1, [])] ∧
    (1, ([] : List Char)) ∈ get_dependencies [chars "[deps]", []] (chars "deps") := by
  exact ⟨by decide, by decide⟩

/-- Claim C8 (amended): the candidate list contains exactly the lines —
empty lines included — recorded inside the section that are not bracket
lines of another section, not the target header itself, and begin with
neither the interpreter pin key nor the templating marker, in file order.
(The claim's additional "non-empty" filter does not exist in the code;
empty lines are collected and only fail to parse later.) -/
theorem candidate_list_characterization (lines : List (List Char)) (sec : List Char) :
    List.Pairwise (fun p q => p.1 < q.1) (get_dependencies lines sec) ∧
    ∀ n l, ((n, l) ∈ get_dependencies lines sec ↔
      (lines[n]? = some l ∧ recAt sec false lines n = true ∧
        passesLineFilters sec l)) := by
  refine ⟨(getDepsAux_sorted sec lines 0 false).1, ?_⟩
  intro n l
  show (n, l) ∈ getDepsAux sec lines 0 false ↔ _
  rw [getDepsAux_mem sec lines 0 false n l]
  constructor
  · rintro ⟨k, hk, hget, hrec, hP⟩
    have : k = n := by omega
    subst this
    exact ⟨hget, hrec, hP⟩
  · rintro ⟨hget, hrec, hP⟩
    exact ⟨n, by omega, hget, hrec, hP⟩

/-- Witness for `candidate_list_characterization`: a section containing a
pin line, a directive line, an empty line and a dependency line yields
exactly the empty line and the dependency line, in order. -/
theorem candidate_list_characterization_witness :
    ((3, chars "ggg = \"1.0\"") ∈ get_dependencies
      [chars "[deps]", chars "python = \"^3.9\"", chars "\x7b% if x %\x7d",
       chars "ggg = \"1.0\"", []] (chars "deps")) ∧
    ¬((1, chars "python = \"^3.9\"") ∈ get_dependencies
      [chars "[deps]", chars "python = \"^3.9\"", chars "\x7b% if x %\x7d",
       chars "ggg = \"1.0\"", []] (chars "deps")) := by
  constructor
  · exact ((candidate_list_characterization
      [chars "[deps]", chars "python = \"^3.9\"", chars "\x7b% if x %\x7d",
       chars "ggg = \"1.0\"", []] (chars "deps")).2 3 (chars "ggg = \"1.0\"")).mpr
      ⟨by decide, by decide, by decide⟩
  · intro hmem
    have := ((candidate_list_characterization
      [chars "[deps]", chars "python = \"^3.9\"", chars "\x7b% if x %\x7d",
       chars "ggg = \"1.0\"", []] (chars "deps")).2 1 (chars "python = \"^3.9\"")).mp hmem
    exact absurd this.2.2 (by decide)

/-! ### Greedy analysis of `RAW_VERSION_RE` on well-formed raw lines -/

/-- A version-class character is distinct from any character outside the
class. -/
theorem versP_ne (c : Char) (h : versP c = true) (d : Char)
    (hd : versP d = false) : c ≠ d := by
  intro he
  subst he
  rw [h] at hd
  exact Bool.noConfusion hd

theorem versP_beq_false (c : Char) (h : versP c = true) (d : Char)
    (hd : versP d = false) : (c == d) = false :=
  beq_eq_false_iff_ne.mpr (versP_ne c h d hd)

/-- Version-class characters are not whitespace. -/
theorem versP_not_space (c : Char) (h : versP c = true) : spaceP c = false := by
  unfold spaceP
  rw [versP_beq_false c h ' ' (by decide), versP_beq_false c h '\t' (by decide),
      versP_beq_false c h '\n' (by decide), versP_beq_false c h '\r' (by decide),
      versP_beq_false c h '\x0b' (by decide), versP_beq_false c h '\x0c' (by decide)]
  rfl

/-- Version-class characters are not comparator characters. -/
theorem versP_not_cmp (c : Char) (h : versP c = true) : cmpP c = false := by
  unfold cmpP
  rw [versP_beq_false c h '^' (by decide), versP_beq_false c h '~' (by decide),
      versP_beq_false c h '>' (by decide), versP_beq_false c h '=' (by decide),
      versP_beq_false c h '<' (by decide), versP_beq_false c h '!' (by decide)]
  rfl

/-- Version-class characters match `.`. -/
theorem versP_dot (c : Char) (h : versP c = true) : dotP c = true := by
  unfold dotP
  simp only [ne_eq, decide_eq_true_eq]
  exact versP_ne c h '\n' (by decide)

/-- The six comparator characters, enumerated. -/
theorem cmpP_cases (c : Char) (h : cmpP c = true) :
    c = '^' ∨ c = '~' ∨ c = '>' ∨ c = '=' ∨ c = '<' ∨ c = '!' := by
  have := by simpa only [cmpP, Bool.or_eq_true, beq_iff_eq] using h
  tauto

theorem cmpP_not_space (c : Char) (h : cmpP c = true) : spaceP c = false := by
  rcases cmpP_cases c h with rfl | rfl | rfl | rfl | rfl | rfl <;> decide

theorem cmpP_dot (c : Char) (h : cmpP c = true) : dotP c = true := by
  rcases cmpP_cases c h with rfl | rfl | rfl | rfl | rfl | rfl <;> decide

theorem cmpP_ne_brace (c : Char) (h : cmpP c = true) : c ≠ '{' := by
  rcases cmpP_cases c h with rfl | rfl | rfl | rfl | rfl | rfl <;> decide

/-- The pattern tail of `RAW_VERSION_RE` after the package group:
`\s*=\s*\"[cmp]?[vers]+\"`. -/
def restItems : List RItem :=
  [.star spaceP, .lit '=', .star spaceP, .lit '"',
   .opt cmpP, .plus versP, .lit '"']

theorem rawItems_eq : rawItems = .star dotP :: restItems := rfl

/-- The raw tail fails on empty input. -/
theorem restItems_nil : matchItems restItems [] = none := by
  show matchItems (.star spaceP :: [.lit '=', .star spaceP, .lit '"',
    .opt cmpP, .plus versP, .lit '"']) [] = none
  rw [matchItems_star_nil, matchItems_lit_nil]
  rfl

/-- The raw tail fails on input whose head is neither whitespace nor `=`. -/
theorem restItems_fail_head (c : Char) (t : List Char)
    (hs : spaceP c = false) (hne : c ≠ '=') :
    matchItems restItems (c :: t) = none := by
  show matchItems (.star spaceP :: [.lit '=', .star spaceP, .lit '"',
    .opt cmpP, .plus versP, .lit '"']) (c :: t) = none
  rw [matchItems_star_cons, if_neg (by simp [hs]), matchItems_lit_cons,
      if_neg hne]
  rfl

/-- The raw tail fails on `=` followed directly by a version character: the
quote required after `\s*` is missing. -/
theorem restItems_fail_eq_vers (v0 : Char) (t : List Char)
    (hv0 : versP v0 = true) :
    matchItems restItems ('=' :: v0 :: t) = none := by
  show matchItems (.star spaceP :: [.lit '=', .star spaceP, .lit '"',
    .opt cmpP, .plus versP, .lit '"']) ('=' :: v0 :: t) = none
  rw [matchItems_star_cons, if_neg (by decide), matchItems_lit_cons,
      if_pos rfl, matchItems_star_cons,
      if_neg (by simp [versP_not_space v0 hv0]), matchItems_lit_cons,
      if_neg (versP_ne v0 hv0 '"' (by decide))]
  rfl

/-- Inside the quoted version region, every stop point of the greedy package
group fails: for any all-version suffix `v` of the version, both the raw
pattern with its package star and the raw tail fail on `v ++ ['"']`. -/
theorem raw_fail_vers_suffix :
    ∀ v : List Char, (∀ c ∈ v, versP c = true) →
      matchItems restItems (v ++ ['"']) = none ∧
      matchItems (.star dotP :: restItems) (v ++ ['"']) = none := by
  intro v
  induction v with
  | nil =>
    intro _
    have h1 : matchItems restItems ['"'] = none :=
      restItems_fail_head '"' [] (by decide) (by decide)
    refine ⟨h1, ?_⟩
    rw [show (([] : List Char) ++ ['"']) = ['"'] from rfl,
        matchItems_star_cons, if_pos (by decide), matchItems_star_nil,
        restItems_nil]
    simp only [Option.map_none', h1]
  | cons c v' ih =>
    intro hall
    have hc : versP c = true := hall c (List.mem_cons_self c v')
    have ih' := ih (fun d hd => hall d (List.mem_cons_of_mem c hd))
    have h1 : matchItems restItems ((c :: v') ++ ['"']) = none := by
      rw [List.cons_append]
      exact restItems_fail_head c (v' ++ ['"']) (versP_not_space c hc)
        (versP_ne c hc '=' (by decide))
    refine ⟨h1, ?_⟩
    have h1' : matchItems restItems (c :: (v' ++ ['"'])) = none := by
      rw [List.cons_append] at h1
      exact h1
    rw [List.cons_append, matchItems_star_cons, if_pos (by simp [versP_dot c hc]),
        ih'.2]
    simp only [h1', Option.map_none']

/-- Same failure for stop points at or after the comparator position. -/
theorem raw_fail_cmp_suffix (cmpL ver : List Char)
    (hcmp : cmpL = [] ∨ ∃ c, cmpL = [c] ∧ cmpP c = true)
    (hv : ver ≠ []) (hvc : ∀ c ∈ ver, versP c = true) :
    matchItems restItems (cmpL ++ ver ++ ['"']) = none ∧
    matchItems (.star dotP :: restItems) (cmpL ++ ver ++ ['"']) = none := by
  obtain ⟨v0, v', rfl⟩ : ∃ v0 v', ver = v0 :: v' := by
    cases ver with
    | nil => exact absurd rfl hv
    | cons v0 v' => exact ⟨v0, v', rfl⟩
  have hv0 : versP v0 = true := hvc v0 (List.mem_cons_self v0 v')
  cases hcmp with
  | inl h =>
    subst h
    rw [List.nil_append]
    exact raw_fail_vers_suffix (v0 :: v') hvc
  | inr h =>
    obtain ⟨c, rfl, hc⟩ := h
    have hvs := raw_fail_vers_suffix (v0 :: v') hvc
    have h1 : matchItems restItems ([c] ++ (v0 :: v') ++ ['"']) = none := by
      by_cases he : c = '='
      · subst he
        rw [show (['='] ++ (v0 :: v') ++ ['"']) = '=' :: v0 :: (v' ++ ['"']) by simp]
        exact restItems_fail_eq_vers v0 (v' ++ ['"']) hv0
      · rw [show ([c] ++ (v0 :: v') ++ ['"']) = c :: ((v0 :: v') ++ ['"']) by simp]
        exact restItems_fail_head c _ (cmpP_not_space c hc) he
    refine ⟨h1, ?_⟩
    rw [show ([c] ++ (v0 :: v') ++ ['"']) = c :: ((v0 :: v') ++ ['"']) by simp] at h1 ⊢
    rw [matchItems_star_cons, if_pos (by simp [cmpP_dot c hc]), hvs.2]
    simp only [h1, Option.map_none']

/-- Failure of both the raw tail and the pattern-with-package-star on the
region starting at the opening quote, i.e. on `'"' :: cmpL ++ ver ++ ['"']`
and on `' ' :: '"' :: cmpL ++ ver ++ ['"']`. -/
theorem raw_fail_quote_region (cmpL ver : List Char)
    (hcmp : cmpL = [] ∨ ∃ c, cmpL = [c] ∧ cmpP c = true)
    (hv : ver ≠ []) (hvc : ∀ c ∈ ver, versP c = true) :
    matchItems (.star dotP :: restItems) ('"' :: (cmpL ++ ver ++ ['"'])) = none ∧
    matchItems (.star dotP :: restItems) (' ' :: '"' :: (cmpL ++ ver ++ ['"'])) = none := by
  have hcv := raw_fail_cmp_suffix cmpL ver hcmp hv hvc
  have hq : matchItems restItems ('"' :: (cmpL ++ ver ++ ['"'])) = none :=
    restItems_fail_head '"' _ (by decide) (by decide)
  have h1 : matchItems (.star dotP :: restItems) ('"' :: (cmpL ++ ver ++ ['"'])) = none := by
    rw [matchItems_star_cons, if_pos (by decide), hcv.2]
    simp only [hq, Option.map_none']
  refine ⟨h1, ?_⟩
  have hsp : matchItems restItems (' ' :: '"' :: (cmpL ++ ver ++ ['"'])) = none := by
    show matchItems (.star spaceP :: [.lit '=', .star spaceP, .lit '"',
      .opt cmpP, .plus versP, .lit '"']) (' ' :: '"' :: (cmpL ++ ver ++ ['"'])) = none
    rw [matchItems_star_cons, if_pos (by decide), matchItems_star_cons,
        if_neg (by decide), matchItems_lit_cons, if_neg (by decide)]
    simp only [Option.map_none']
    rw [matchItems_lit_cons, if_neg (by decide)]
    rfl
  rw [matchItems_star_cons, if_pos (by decide), h1]
  simp only [hsp, Option.map_none']

/-- Success of `[vers]*\"` on the remainder of the version: the star takes
the whole version remainder and the closing quote is consumed. -/
theorem starVers_quote_success :
    ∀ v : List Char, (∀ c ∈ v, versP c = true) →
      matchItems [.star versP, .lit '"'] (v ++ ['"']) = some ([v, ['"']], []) := by
  intro v
  induction v with
  | nil =>
    intro _
    rw [List.nil_append, matchItems_star_cons, if_neg (by decide),
        matchItems_lit_cons, if_pos rfl, matchItems_nil]
    rfl
  | cons c v' ih =>
    intro hall
    have hc : versP c = true := hall c (List.mem_cons_self c v')
    rw [List.cons_append, matchItems_star_cons, if_pos (by simp [hc]),
        ih (fun d hd => hall d (List.mem_cons_of_mem c hd))]

/-- Success of the raw tail on the boundary suffix
`'=' :: ' ' :: '"' :: cmpL ++ ver ++ ['"']`, with the expected groups. -/
theorem restItems_success (cmpL ver : List Char)
    (hcmp : cmpL = [] ∨ ∃ c, cmpL = [c] ∧ cmpP c = true)
    (hv : ver ≠ []) (hvc : ∀ c ∈ ver, versP c = true) :
    matchItems restItems ('=' :: ' ' :: '"' :: (cmpL ++ ver ++ ['"'])) =
      some ([[], ['='], [' '], ['"'], cmpL, ver, ['"']], []) := by
  obtain ⟨v0, v', rfl⟩ : ∃ v0 v', ver = v0 :: v' := by
    cases ver with
    | nil => exact absurd rfl hv
    | cons v0 v' => exact ⟨v0, v', rfl⟩
  have hv0 : versP v0 = true := hvc v0 (List.mem_cons_self v0 v')
  have hplus : matchItems [.plus versP, .lit '"'] ((v0 :: v') ++ ['"']) =
      some ([v0 :: v', ['"']], []) := by
    rw [List.cons_append, matchItems_plus_cons, if_pos (by simp [hv0]),
        starVers_quote_success v' (fun d hd => hvc d (List.mem_cons_of_mem v0 hd))]
  have hopt : matchItems [.opt cmpP, .plus versP, .lit '"']
      (cmpL ++ ((v0 :: v') ++ ['"'])) =
      some ([cmpL, v0 :: v', ['"']], []) := by
    cases hcmp with
    | inl h =>
      subst h
      rw [List.nil_append, List.cons_append, matchItems_opt_cons,
          if_neg (by simp [versP_not_cmp v0 hv0])]
      rw [← List.cons_append, hplus]
      rfl
    | inr h =>
      obtain ⟨c, rfl, hc⟩ := h
      rw [show (([c] ++ ((v0 :: v') ++ ['"'])) = c :: ((v0 :: v') ++ ['"'])) from rfl,
          matchItems_opt_cons, if_pos (by simp [hc]), hplus]
  show matchItems (.star spaceP :: [.lit '=', .star spaceP, .lit '"',
    .opt cmpP, .plus versP, .lit '"']) _ = _
  rw [matchItems_star_cons, if_neg (by decide), matchItems_lit_cons, if_pos rfl,
      matchItems_star_cons, if_pos (by decide), matchItems_star_cons,
      if_neg (by decide), matchItems_lit_cons, if_pos rfl]
  rw [show (cmpL ++ (v0 :: v') ++ ['"']) = cmpL ++ ((v0 :: v') ++ ['"']) by simp,
      hopt]
  rfl

/-- The greedy package star stops exactly before the separator: on a
well-formed raw line the full raw pattern matches with package group
`pkg ++ [' ']` (the greedy `.*` swallows the separating space), the
comparator and version groups as declared, and nothing left over. -/
theorem rawItems_success (cmpL ver : List Char)
    (hcmp : cmpL = [] ∨ ∃ c, cmpL = [c] ∧ cmpP c = true)
    (hv : ver ≠ []) (hvc : ∀ c ∈ ver, versP c = true) :
    ∀ pkg : List Char, (∀ c ∈ pkg, versP c = true) →
      matchItems rawItems
        (pkg ++ (' ' :: '=' :: ' ' :: '"' :: (cmpL ++ ver ++ ['"']))) =
      some ([pkg ++ [' '], [], ['='], [' '], ['"'], cmpL, ver, ['"']], []) := by
  intro pkg
  induction pkg with
  | nil =>
    intro _
    rw [List.nil_append, rawItems_eq, matchItems_star_cons, if_pos (by decide),
        matchItems_star_cons, if_pos (by decide),
        (raw_fail_quote_region cmpL ver hcmp hv hvc).2,
        restItems_success cmpL ver hcmp hv hvc]
    rfl
  | cons c pkg' ih =>
    intro hall
    have hc : versP c = true := hall c (List.mem_cons_self c pkg')
    rw [List.cons_append, rawItems_eq, matchItems_star_cons,
        if_pos (by simp [versP_dot c hc]), ← rawItems_eq,
        ih (fun d hd => hall d (List.mem_cons_of_mem c hd))]
    rfl

/-- `EXPANDED_VER_RE` cannot match any input that contains no `{`:
auxiliary, for the sub-pattern starting at `\s*\{`. -/
theorem expFail_space_brace (R : List RItem) :
    ∀ s : List Char, '{' ∉ s →
      matchItems (.star spaceP :: .lit '{' :: R) s = none := by
  intro s
  induction s with
  | nil =>
    intro _
    rw [matchItems_star_nil, matchItems_lit_nil]
    rfl
  | cons c cs ih =>
    intro hnb
    have hc : c ≠ '{' := fun he => hnb (he ▸ List.mem_cons_self c cs)
    have hcs : '{' ∉ cs := fun hm => hnb (List.mem_cons_of_mem c hm)
    by_cases hsp : spaceP c = true
    · rw [matchItems_star_cons, if_pos hsp, ih hcs]
      simp only [Option.map_none']
      rw [matchItems_lit_cons, if_neg hc]
      rfl
    · rw [matchItems_star_cons, if_neg hsp, matchItems_lit_cons, if_neg hc]
      rfl

/-- Auxiliary for the sub-pattern starting at `\s*=\s*\{`. -/
theorem expFail_eq_brace (R : List RItem) :
    ∀ s : List Char, '{' ∉ s →
      matchItems (.star spaceP :: .lit '=' :: .star spaceP :: .lit '{' :: R) s = none := by
  intro s
  induction s with
  | nil =>
    intro _
    rw [matchItems_star_nil, matchItems_lit_nil]
    rfl
  | cons c cs ih =>
    intro hnb
    have hcs : '{' ∉ cs := fun hm => hnb (List.mem_cons_of_mem c hm)
    have hlit : matchItems (.lit '=' :: .star spaceP :: .lit '{' :: R) (c :: cs) = none := by
      rw [matchItems_lit_cons]
      by_cases he : c = '='
      · rw [if_pos he, expFail_space_brace R cs hcs]
        rfl
      · rw [if_neg he]
    by_cases hsp : spaceP c = true
    · rw [matchItems_star_cons, if_pos hsp, ih hcs]
      simp only [hlit, Option.map_none']
    · rw [matchItems_star_cons, if_neg hsp, hlit]
      rfl

/-- `EXPANDED_VER_RE` fails on any input without a `{`. -/
theorem expandedMatch_no_brace (s : List Char) (hnb : '{' ∉ s) :
    expandedMatch s = none := by
  have hfail : ∀ t : List Char, '{' ∉ t → matchItems expItems t = none := by
    intro t
    induction t with
    | nil =>
      intro _
      show matchItems (.star dotP :: .star spaceP :: .lit '=' :: .star spaceP ::
        .lit '{' :: _) [] = none
      rw [matchItems_star_nil, expFail_eq_brace _ [] (by simp)]
      rfl
    | cons c cs ih =>
      intro hnb'
      have hcs : '{' ∉ cs := fun hm => hnb' (List.mem_cons_of_mem c hm)
      have htail : matchItems (.star spaceP :: .lit '=' :: .star spaceP ::
          .lit '{' :: expItems.drop 5) (c :: cs) = none :=
        expFail_eq_brace _ (c :: cs) hnb'
      show matchItems (.star dotP :: .star spaceP :: .lit '=' :: .star spaceP ::
        .lit '{' :: expItems.drop 5) (c :: cs) = none
      have ih' : matchItems (.star dotP :: .star spaceP :: .lit '=' :: .star spaceP ::
          .lit '{' :: expItems.drop 5) cs = none := ih hcs
      by_cases hd : dotP c = true
      · rw [matchItems_star_cons, if_pos hd, ih']
        simp only [htail, Option.map_none']
      · rw [matchItems_star_cons, if_neg hd, htail]
        rfl
  unfold expandedMatch
  rw [hfail s hnb]

/-- Stripping helpers on well-formed groups. -/
theorem pyStrip_vers_space (pkg : List Char) (hp : pkg ≠ [])
    (hpc : ∀ c ∈ pkg, versP c = true) : pyStrip (pkg ++ [' ']) = pkg := by
  obtain ⟨p0, p', rfl⟩ : ∃ p0 p', pkg = p0 :: p' := by
    cases pkg with
    | nil => exact absurd rfl hp
    | cons p0 p' => exact ⟨p0, p', rfl⟩
  unfold pyStrip
  rw [List.cons_append, List.dropWhile_cons,
      if_neg (by simp [versP_not_space p0 (hpc p0 (List.mem_cons_self p0 p'))])]
  rw [show ((p0 :: (p' ++ [' '])).reverse = ' ' :: (p0 :: p').reverse) by simp,
      List.dropWhile_cons, if_pos (by decide)]
  have hall : ∀ c ∈ (p0 :: p').reverse, versP c = true := by
    intro d hd
    exact hpc d (List.mem_reverse.mp hd)
  have : (p0 :: p').reverse.dropWhile spaceP = (p0 :: p').reverse := by
    cases hrev : (p0 :: p').reverse with
    | nil => rfl
    | cons q0 q' =>
      rw [List.dropWhile_cons, if_neg (by
        have hq0 : versP q0 = true := by
          apply hall
          rw [hrev]
          exact List.mem_cons_self q0 q'
        simp [versP_not_space q0 hq0])]
  rw [this, List.reverse_reverse]

theorem lstripCmp_group (cmpL ver : List Char)
    (hcmp : cmpL = [] ∨ ∃ c, cmpL = [c] ∧ cmpP c = true)
    (hv : ver ≠ []) (hvc : ∀ c ∈ ver, versP c = true) :
    lstripCmp (cmpL ++ ver) = ver := by
  obtain ⟨v0, v', rfl⟩ : ∃ v0 v', ver = v0 :: v' := by
    cases ver with
    | nil => exact absurd rfl hv
    | cons v0 v' => exact ⟨v0, v', rfl⟩
  have hstop : (v0 :: v').dropWhile cmpP = v0 :: v' := by
    rw [List.dropWhile_cons, if_neg (by
      simp [versP_not_cmp v0 (hvc v0 (List.mem_cons_self v0 v'))])]
  cases hcmp with
  | inl h =>
    subst h
    rw [List.nil_append]
    exact hstop
  | inr h =>
    obtain ⟨c, rfl, hc⟩ := h
    unfold lstripCmp
    rw [show ([c] ++ v0 :: v') = c :: (v0 :: v') from rfl, List.dropWhile_cons,
        if_pos (by simp [hc])]
    exact hstop

/-- Claim C3 counterexample: a multi-character comparator prefix does NOT
match.  The comparator class of `RAW_VERSION_RE` is `[\^\~\>\=\<\!]?` —
at most ONE character — so `hhh = ">=1.2.3"` fails both regexes, the parse
is `None`, and the bump skips the line, contrary to the claim that any
sequence of comparator characters (e.g. `>=`) is accepted with version
`1.2.3`. -/
theorem raw_multichar_comparator_cex :
    rawMatch (chars "hhh = \">=1.2.3\"") = none ∧
    parse_dependency (chars "hhh = \">=1.2.3\"") = none ∧
    bump_version (fun _ => some (chars "9.9.9")) (chars "hhh = \">=1.2.3\"") = none := by
  exact ⟨by decide, by decide, by decide⟩

/-- Claim C3 (amended): for every raw-shape dependency line
`pkg = "<op><version>"` whose comparator prefix `<op>` is zero or **one**
character from `{^, ~, >, =, <, !}` (package and version made of
version-class characters), the parser matches and extracts the package name
(trimmed of the space swallowed by the greedy package group) and the version
with the comparator character stripped.  Multi-character prefixes such as
`>=` are outside the regex's comparator class and do not match. -/
theorem raw_shape_parses_single_comparator (pkg cmpL ver : List Char)
    (hp : pkg ≠ []) (hpc : ∀ c ∈ pkg, versP c = true)
    (hv : ver ≠ []) (hvc : ∀ c ∈ ver, versP c = true)
    (hcmp : cmpL = [] ∨ ∃ c, cmpL = [c] ∧ cmpP c = true) :
    parse_dependency (pkg ++ (' ' :: '=' :: ' ' :: '"' :: (cmpL ++ ver ++ ['"']))) =
      some (pkg, ver) := by
  have hnb : '{' ∉ pkg ++ (' ' :: '=' :: ' ' :: '"' :: (cmpL ++ ver ++ ['"'])) := by
    intro hm
    rcases List.mem_append.mp hm with h | h
    · exact absurd (hpc '{' h) (by decide)
    · simp only [List.mem_cons] at h
      rcases h with h | h | h | h | h
      · exact absurd h (by decide)
      · exact absurd h (by decide)
      · exact absurd h (by decide)
      · exact absurd h (by decide)
      · rcases List.mem_append.mp h with h2 | h2
        · rcases List.mem_append.mp h2 with h3 | h3
          · cases hcmp with
            | inl hcn => rw [hcn] at h3; exact absurd h3 (List.not_mem_nil _)
            | inr hcc =>
              obtain ⟨c, rfl, hc⟩ := hcc
              have : '{' = c := List.mem_singleton.mp h3
              exact cmpP_ne_brace c hc this.symm
          · exact absurd (hvc '{' h3) (by decide)
        · exact absurd (List.mem_singleton.mp h2) (by decide)
  have hexp : expandedMatch
      (pkg ++ (' ' :: '=' :: ' ' :: '"' :: (cmpL ++ ver ++ ['"']))) = none :=
    expandedMatch_no_brace _ hnb
  have hraw : rawMatch
      (pkg ++ (' ' :: '=' :: ' ' :: '"' :: (cmpL ++ ver ++ ['"']))) =
      some (pkg ++ [' '], cmpL ++ ver) := by
    unfold rawMatch
    rw [rawItems_success cmpL ver hcmp hv hvc pkg hpc]
  unfold parse_dependency
  rw [hexp, hraw]
  show some (pyStrip (pkg ++ [' ']), lstripCmp (cmpL ++ ver)) = some (pkg, ver)
  rw [pyStrip_vers_space pkg hp hpc, lstripCmp_group cmpL ver hcmp hv hvc]

/-- Witness for `raw_shape_parses_single_comparator`: `pkg2 = "^1.2.3"`
parses to package `pkg2` and version `1.2.3`. -/
theorem raw_shape_parses_single_comparator_witness :
    parse_dependency (chars "pkg2 = \"^1.2.3\"") =
      some (chars "pkg2", chars "1.2.3") := by
  have h := raw_shape_parses_single_comparator (chars "pkg2") ['^'] (chars "1.2.3")
    (by decide) (by decide) (by decide) (by decide)
    (Or.inr ⟨'^', rfl, by decide⟩)
  have heq : chars "pkg2" ++ (' ' :: '=' :: ' ' :: '"' ::
      (['^'] ++ chars "1.2.3" ++ ['"'])) = chars "pkg2 = \"^1.2.3\"" := by decide
  rw [heq] at h
  exact h
